import Mathlib

/-!
Verification development for a minimal proof-of-work blockchain with
post-quantum signatures (src/main.rs).

Shallow embedding conventions:

* The external cryptographic collaborators (SHA-256, the Dilithium2
  signature verification of `oqs`, and `serde_json` serialization of a
  transaction list) are opaque to the program, so they are modelled as the
  fields of a `Crypto` record that is threaded through every definition,
  exactly as the `PQC` handle is threaded through the Rust code.
  `Crypto.sha256` models the raw digest function (arbitrary byte list in,
  digest byte list out), `Crypto.sigVerify` models
  `oqs::sig::Sig::verify(data, sig, pk).is_ok()` (total, boolean), and
  `Crypto.ser` models `serde_json::to_string(&txs)` with `none` standing
  for the `Err` case that `main.rs` maps to `ChainError::Serialize`.
* Byte strings (`Vec<u8>`) are `List Nat`.  The bytes of a Rust `String`
  fed to a hasher are modelled by `strBytes` (the sequence of code points;
  for the hashing done here only determinism and injectivity of the
  encoding matter, since the digest function itself is abstract).
* `u32`/`u64`/`usize` are `Nat`; the one place the source truncates,
  `self.chain.len() as u32` in `Blockchain::add_block`, is modelled by an
  explicit `% 2 ^ 32`.
* The unbounded mining loop of `Block::mine` is modelled with an explicit
  fuel parameter: `mine ... fuel = none` means the loop has not returned
  within `fuel` iterations, and every run of the Rust loop that returns is
  `mine ... fuel = some r` for every sufficiently large `fuel`.
* `Blockchain::add_block` mutates `&mut self`; it is modelled by explicit
  state passing, returning the `Result` value together with the chain
  state after the call (unchanged on every early `?`-return).
-/

namespace PqcChain

/-- Error enum `ChainError` of src/main.rs. -/
inductive ChainError where
  | PQCInit
  | Keypair
  | Sign
  | Serialize
deriving DecidableEq

/-- Struct `Transaction` of src/main.rs: sender public key bytes, payload
string, signature bytes. -/
structure Transaction where
  «from» : List Nat
  data : String
  signature : List Nat
deriving DecidableEq

/-- The external cryptographic collaborators of src/main.rs, threaded
through the embedding the way the `PQC` handle (and the ambient `sha2` /
`serde_json` crates) are threaded through the Rust code. -/
structure Crypto where
  sha256 : List Nat → List Nat
  sigVerify : List Nat → List Nat → List Nat → Bool
  ser : List Transaction → Option String

/-- Byte content of a Rust `String` as fed to `Sha256::update` (modelled
as the code-point sequence; the digest function is abstract, so only
determinism and injectivity of the encoding matter). -/
def strBytes (s : String) : List Nat := s.data.map Char.toNat

/-- Lowercase hex encoding of a digest, modelling `format!("{:x}", ...)`
on a SHA-256 digest (two lowercase hex characters per byte). -/
def hexEncode (bs : List Nat) : String :=
  String.mk (bs.foldr (fun b acc => Nat.digitChar (b / 16 % 16) :: Nat.digitChar (b % 16) :: acc) [])

/-- Method `PQC::verify` of src/main.rs:
`self.sigalg.verify(data, sig, pk).is_ok()`. -/
def PQC.verify (c : Crypto) (data sgn pk : List Nat) : Bool :=
  c.sigVerify data sgn pk

/-- Method `Transaction::hash` of src/main.rs: SHA-256 over the sender
bytes followed by the payload bytes. -/
def Transaction.hash (c : Crypto) (t : Transaction) : List Nat :=
  c.sha256 (t.«from» ++ strBytes t.data)

/-- Method `Transaction::verify` of src/main.rs:
`pqc.verify(&self.hash(), &self.signature, &self.from)`. -/
def Transaction.verify (c : Crypto) (t : Transaction) : Bool :=
  PQC.verify c (Transaction.hash c t) t.signature t.«from»

/-- Struct `Block` of src/main.rs. -/
structure Block where
  index : Nat
  previous_hash : String
  hash : String
  transactions : List Transaction
  nonce : Nat
deriving DecidableEq

/-- The Rust check `hash.starts_with(&"0".repeat(difficulty))`: the hex
digest has at least `difficulty` leading zero characters. -/
def startsWithZeros (difficulty : Nat) (s : String) : Bool :=
  (List.replicate difficulty '0').isPrefixOf s.data

/-- Associated function `Block::calculate_hash` of src/main.rs:
serialize the transactions (`none` from the serializer becomes
`ChainError::Serialize`), concatenate `format!("{}{}{}{}", index, prev,
data, nonce)`, and hex-encode the SHA-256 digest of the result. -/
def calculate_hash (c : Crypto) (index : Nat) (prev : String)
    (txs : List Transaction) (nonce : Nat) : Except ChainError String :=
  match c.ser txs with
  | none => Except.error ChainError.Serialize
  | some data =>
      Except.ok (hexEncode (c.sha256 (strBytes (toString index ++ prev ++ data ++ toString nonce))))

/-- Fuel-indexed unfolding of the `loop` in `Block::mine` of src/main.rs,
starting at the given nonce.  `none` means the loop has not returned
within `fuel` iterations. -/
def mineAux (c : Crypto) (index : Nat) (prev : String) (txs : List Transaction)
    (difficulty : Nat) : Nat → Nat → Option (Except ChainError Block)
  | 0, _ => none
  | fuel + 1, nonce =>
    match calculate_hash c index prev txs nonce with
    | Except.error e => some (Except.error e)
    | Except.ok hash =>
      if startsWithZeros difficulty hash then
        some (Except.ok ⟨index, prev, hash, txs, nonce⟩)
      else
        mineAux c index prev txs difficulty fuel (nonce + 1)

/-- Associated function `Block::mine` of src/main.rs: brute-force nonce
search starting at 0. -/
def mine (c : Crypto) (index : Nat) (prev : String) (txs : List Transaction)
    (difficulty : Nat) (fuel : Nat) : Option (Except ChainError Block) :=
  mineAux c index prev txs difficulty fuel 0

/-- Struct `Blockchain` of src/main.rs. -/
structure Blockchain where
  chain : List Block
  difficulty : Nat
deriving DecidableEq

/-- Associated function `Blockchain::new` of src/main.rs: mine a genesis
block at index 0 with previous hash `"0"` and no transactions. -/
def Blockchain.new (c : Crypto) (difficulty : Nat) (fuel : Nat) :
    Option (Except ChainError Blockchain) :=
  match mine c 0 "0" [] difficulty fuel with
  | none => none
  | some (Except.error e) => some (Except.error e)
  | some (Except.ok g) => some (Except.ok ⟨[g], difficulty⟩)

/-- Method `Blockchain::add_block` of src/main.rs, in state-passing form:
the returned pair is the `Result` value together with the chain state
after the call.  The `as u32` cast of `self.chain.len()` is the explicit
`% 2 ^ 32`.  On every early `?`-return the state is the unchanged input
state, mirroring that the Rust method only pushes after both `?` succeed. -/
def Blockchain.add_block (c : Crypto) (bc : Blockchain) (txs : List Transaction)
    (fuel : Nat) : Option (Except ChainError Unit × Blockchain) :=
  match bc.chain.getLast? with
  | none => some (Except.error ChainError.Serialize, bc)
  | some last =>
    match mine c (bc.chain.length % 2 ^ 32) last.hash txs bc.difficulty fuel with
    | none => none
    | some (Except.error e) => some (Except.error e, bc)
    | some (Except.ok b) => some (Except.ok (), ⟨bc.chain ++ [b], bc.difficulty⟩)

/-- The per-block hash re-derivation check of `Blockchain::is_valid`
(src/main.rs lines 186-198): recompute the hash from the block's own
stored fields; a serialization error or a mismatch with the stored hash
means failure. -/
def hashOk (c : Crypto) (b : Block) : Bool :=
  match calculate_hash c b.index b.previous_hash b.transactions b.nonce with
  | Except.error _ => false
  | Except.ok h => b.hash == h

/-- The transaction loop of `Blockchain::is_valid` (src/main.rs lines
206-210): every transaction of the block must verify. -/
def txsOk (c : Crypto) : List Transaction → Bool
  | [] => true
  | t :: ts => Transaction.verify c t && txsOk c ts

/-- The validation walk of `Blockchain::is_valid` over the remaining
blocks; `p` is `none` at the first block (no link check when `i = 0`) and
`some` of the stored hash of the preceding block afterwards. -/
def validFrom (c : Crypto) : Option String → List Block → Bool
  | _, [] => true
  | p, b :: rest =>
    hashOk c b
      && (match p with
          | none => true
          | some ph => b.previous_hash == ph)
      && txsOk c b.transactions
      && validFrom c (some b.hash) rest

/-- Method `Blockchain::is_valid` of src/main.rs. -/
def Blockchain.is_valid (c : Crypto) (bc : Blockchain) : Bool :=
  validFrom c none bc.chain

/-- Chains reachable purely through `Blockchain::new` followed by any
number of successful `add_block` calls. -/
inductive Built (c : Crypto) : Blockchain → Prop where
  | base : ∀ d fuel bc, Blockchain.new c d fuel = some (Except.ok bc) → Built c bc
  | step : ∀ bc txs fuel bc', Built c bc →
      Blockchain.add_block c bc txs fuel = some (Except.ok (), bc') → Built c bc'

/-- Replace the element at position `i` (no-op when out of range); used to
express the tampering scenarios of the spec. -/
def modifyIdx {α : Type} : Nat → (α → α) → List α → List α
  | _, _, [] => []
  | 0, f, a :: as => f a :: as
  | i + 1, f, a :: as => a :: modifyIdx i f as

/-- Overwrite the stored `hash` field of a block. -/
def withHash (h : String) (b : Block) : Block := { b with hash := h }

/-- Overwrite the stored `previous_hash` field of a block. -/
def withPrev (p : String) (b : Block) : Block := { b with previous_hash := p }

/-- Overwrite the signature bytes of a transaction. -/
def withSig (s : List Nat) (t : Transaction) : Transaction := { t with signature := s }

/-- Overwrite the signature bytes of transaction `l` of a block. -/
def withTxSig (l : Nat) (s : List Nat) (b : Block) : Block :=
  { b with transactions := modifyIdx l (withSig s) b.transactions }

/-- Tampering: overwrite the stored `hash` field of block `i`. -/
def setHash (bc : Blockchain) (i : Nat) (h : String) : Blockchain :=
  ⟨modifyIdx i (withHash h) bc.chain, bc.difficulty⟩

/-- Tampering: overwrite the stored `previous_hash` field of block `i`. -/
def setPrev (bc : Blockchain) (i : Nat) (p : String) : Blockchain :=
  ⟨modifyIdx i (withPrev p) bc.chain, bc.difficulty⟩

/-- Tampering: overwrite the signature bytes of transaction `l` of block
`i`. -/
def setSig (bc : Blockchain) (i l : Nat) (s : List Nat) : Blockchain :=
  ⟨modifyIdx i (withTxSig l s) bc.chain, bc.difficulty⟩

/-- Link relation between consecutive blocks checked by
`Blockchain::is_valid`. -/
def linkRel (a b : Block) : Prop := b.previous_hash = a.hash

/-- Characters that can appear in a lowercase hex digest: a decimal
digit or one of the letters from 'a' to 'f'. -/
def isHexChar (ch : Char) : Bool :=
  ('0' ≤ ch && ch ≤ '9') || ('a' ≤ ch && ch ≤ 'f')

theorem isHexChar_digitChar (n : Nat) : isHexChar (Nat.digitChar (n % 16)) = true := by
  have h : n % 16 < 16 := Nat.mod_lt _ (by norm_num)
  have key : ∀ m : Fin 16, isHexChar (Nat.digitChar m.val) = true := by decide
  exact key ⟨n % 16, h⟩

theorem hexEncode_chars : ∀ (bs : List Nat) (ch : Char),
    ch ∈ (hexEncode bs).data → isHexChar ch = true := by
  intro bs
  induction bs with
  | nil => intro ch h; simp [hexEncode] at h
  | cons b bs ih =>
    intro ch h
    have h2 : ch ∈ Nat.digitChar (b / 16 % 16) :: Nat.digitChar (b % 16) ::
        (hexEncode bs).data := h
    rcases List.mem_cons.mp h2 with hc | h3
    · exact hc ▸ isHexChar_digitChar (b / 16)
    · rcases List.mem_cons.mp h3 with hc | h4
      · exact hc ▸ isHexChar_digitChar b
      · exact ih ch h4

/-- Full characterization of a successful run of the mining loop: the
returned block carries the mining arguments, its stored hash is the
recomputation at its nonce, that hash meets the difficulty, and every
nonce tried before it failed the difficulty check. -/
theorem mineAux_ok (c : Crypto) (idx : Nat) (prev : String) (txs : List Transaction)
    (d : Nat) : ∀ (fuel n0 : Nat) (b : Block),
    mineAux c idx prev txs d fuel n0 = some (Except.ok b) →
    b.index = idx ∧ b.previous_hash = prev ∧ b.transactions = txs ∧
    calculate_hash c idx prev txs b.nonce = Except.ok b.hash ∧
    startsWithZeros d b.hash = true ∧ n0 ≤ b.nonce ∧
    ∀ n, n0 ≤ n → n < b.nonce →
      ∃ h, calculate_hash c idx prev txs n = Except.ok h ∧ startsWithZeros d h = false := by
  intro fuel
  induction fuel with
  | zero => intro n0 b h; simp [mineAux] at h
  | succ fuel ih =>
    intro n0 b h
    simp only [mineAux] at h
    split at h
    next e heq => simp at h
    next hsh heq =>
      split at h
      next hz =>
        simp only [Option.some.injEq, Except.ok.injEq] at h
        subst h
        exact ⟨rfl, rfl, rfl, heq, hz, Nat.le_refl _,
          fun n hn1 hn2 => (Nat.not_lt.mpr hn1 (show n < n0 from hn2)).elim⟩
      next hz =>
        obtain ⟨h1, h2, h3, h4, h5, h6, h7⟩ := ih (n0 + 1) b h
        refine ⟨h1, h2, h3, h4, h5, by omega, fun n hn1 hn2 => ?_⟩
        rcases Nat.eq_or_lt_of_le hn1 with heq2 | hlt
        · exact heq2 ▸ ⟨hsh, heq, Bool.eq_false_iff.mpr hz⟩
        · exact h7 n hlt hn2

/-- Specialization of `mineAux_ok` to `Block::mine` (search from 0). -/
theorem mine_ok (c : Crypto) (idx : Nat) (prev : String) (txs : List Transaction)
    (d fuel : Nat) (b : Block) (h : mine c idx prev txs d fuel = some (Except.ok b)) :
    b.index = idx ∧ b.previous_hash = prev ∧ b.transactions = txs ∧
    calculate_hash c idx prev txs b.nonce = Except.ok b.hash ∧
    startsWithZeros d b.hash = true ∧
    ∀ n, n < b.nonce →
      ∃ hsh, calculate_hash c idx prev txs n = Except.ok hsh ∧ startsWithZeros d hsh = false := by
  obtain ⟨h1, h2, h3, h4, h5, _, h7⟩ := mineAux_ok c idx prev txs d fuel 0 b h
  exact ⟨h1, h2, h3, h4, h5, fun n hn => h7 n (Nat.zero_le n) hn⟩

/-- A block passes the hash re-derivation check exactly when the stored
hash equals the successful recomputation from its own fields. -/
theorem hashOk_of (c : Crypto) (b : Block)
    (h : calculate_hash c b.index b.previous_hash b.transactions b.nonce = Except.ok b.hash) :
    hashOk c b = true := by
  simp [hashOk, h]

theorem txsOk_eq_true (c : Crypto) : ∀ ts : List Transaction,
    txsOk c ts = true ↔ ∀ t ∈ ts, Transaction.verify c t = true := by
  intro ts
  induction ts with
  | nil => simp [txsOk]
  | cons t ts ih => simp [txsOk, Bool.and_eq_true, ih]

theorem modifyIdx_length {α : Type} (f : α → α) : ∀ (l : List α) (i : Nat),
    (modifyIdx i f l).length = l.length := by
  intro l
  induction l with
  | nil => intro i; simp [modifyIdx]
  | cons a as ih =>
    intro i
    cases i with
    | zero => simp [modifyIdx]
    | succ j => simp [modifyIdx, ih j]

theorem modifyIdx_getElem? {α : Type} (f : α → α) : ∀ (l : List α) (i : Nat),
    (modifyIdx i f l)[i]? = l[i]?.map f := by
  intro l
  induction l with
  | nil => intro i; simp [modifyIdx]
  | cons a as ih =>
    intro i
    cases i with
    | zero => simp [modifyIdx]
    | succ j => simpa [modifyIdx] using ih j

theorem modifyIdx_getElem?_ne {α : Type} (f : α → α) : ∀ (l : List α) (i j : Nat),
    i ≠ j → (modifyIdx i f l)[j]? = l[j]? := by
  intro l
  induction l with
  | nil => intro i j _; simp [modifyIdx]
  | cons a as ih =>
    intro i j hne
    cases i with
    | zero =>
      cases j with
      | zero => exact absurd rfl hne
      | succ j2 => simp [modifyIdx]
    | succ i2 =>
      cases j with
      | zero => simp [modifyIdx]
      | succ j2 => simpa [modifyIdx] using ih i2 j2 (by omega)

/-- The validation walk succeeds exactly when every block passes the hash
re-derivation check, every transaction of every block verifies, all
consecutive blocks are linked, and (when a predecessor hash is given) the
first block links to it. -/
theorem validFrom_eq_true (c : Crypto) : ∀ (bs : List Block) (p : Option String),
    validFrom c p bs = true ↔
      ((∀ b ∈ bs, hashOk c b = true ∧ txsOk c b.transactions = true) ∧
        List.Chain' linkRel bs ∧
        ∀ ph b0, p = some ph → bs.head? = some b0 → b0.previous_hash = ph) := by
  intro bs
  induction bs with
  | nil => intro p; simp [validFrom]
  | cons b rest ih =>
    intro p
    cases p with
    | none =>
      simp only [validFrom, Bool.and_eq_true, beq_iff_eq, ih (some b.hash),
        List.chain'_cons', List.forall_mem_cons, List.head?_cons, Option.some.injEq,
        Option.mem_def, linkRel, and_true]
      constructor
      · rintro ⟨⟨hh, ht⟩, hr, hc, hhd⟩
        exact ⟨⟨⟨hh, ht⟩, hr⟩, ⟨fun y hy => hhd b.hash y rfl hy, hc⟩,
          fun ph b0 h => nomatch h⟩
      · rintro ⟨⟨⟨hh, ht⟩, hr⟩, ⟨hhd, hc⟩, -⟩
        exact ⟨⟨hh, ht⟩, hr, hc, fun ph b0 hph hy => hph ▸ hhd b0 hy⟩
    | some val =>
      simp only [validFrom, Bool.and_eq_true, beq_iff_eq, ih (some b.hash),
        List.chain'_cons', List.forall_mem_cons, List.head?_cons, Option.some.injEq,
        Option.mem_def, linkRel, and_true]
      constructor
      · rintro ⟨⟨⟨hh, hpv⟩, ht⟩, hr, hc, hhd⟩
        refine ⟨⟨⟨hh, ht⟩, hr⟩, ⟨fun y hy => hhd b.hash y rfl hy, hc⟩, ?_⟩
        rintro ph b0 rfl rfl
        exact hpv
      · rintro ⟨⟨⟨hh, ht⟩, hr⟩, ⟨hhd, hc⟩, hlink⟩
        exact ⟨⟨⟨hh, hlink val b rfl rfl⟩, ht⟩, hr, hc,
          fun ph b0 hph hy => hph ▸ hhd b0 hy⟩

/-- Every chain reachable through `new` + `add_block` is non-empty, every
block passes the hash re-derivation check, consecutive blocks are linked,
the block at position `i` has index `i % 2 ^ 32` (the `as u32` cast), and
the first block is the genesis block at index 0 with previous hash `"0"`. -/
theorem built_inv (c : Crypto) (bc : Blockchain) (hB : Built c bc) :
    bc.chain ≠ [] ∧
    (∀ b ∈ bc.chain, hashOk c b = true) ∧
    List.Chain' linkRel bc.chain ∧
    (∀ i (hi : i < bc.chain.length), (bc.chain.get ⟨i, hi⟩).index = i % 2 ^ 32) ∧
    (∀ b0, bc.chain.head? = some b0 → b0.index = 0 ∧ b0.previous_hash = "0") := by
  induction hB with
  | base d fuel bc hnew =>
    simp only [Blockchain.new] at hnew
    split at hnew
    next => exact absurd hnew (by simp)
    next e heq => simp at hnew
    next g heq =>
      simp only [Option.some.injEq, Except.ok.injEq] at hnew
      subst hnew
      obtain ⟨h1, h2, h3, h4, h5, h6⟩ := mine_ok c 0 "0" [] d fuel g heq
      refine ⟨by simp, ?_, by simp, ?_, ?_⟩
      · intro b hb
        simp only [List.mem_singleton] at hb
        subst hb
        exact hashOk_of c b (by rw [h1, h2, h3]; exact h4)
      · intro i hi
        simp only [List.length_singleton] at hi
        interval_cases i
        simpa using h1
      · intro b0 hb0
        simp only [List.head?_cons, Option.some.injEq] at hb0
        subst hb0
        exact ⟨h1, h2⟩
  | step bc txs fuel bc' hBuilt hadd ih =>
    obtain ⟨hne, hhash, hchain, hidx, hhead⟩ := ih
    simp only [Blockchain.add_block] at hadd
    split at hadd
    next hlast => exact absurd hadd (by simp)
    next last hlast =>
      split at hadd
      next => exact absurd hadd (by simp)
      next e heq => simp at hadd
      next nb heq =>
        simp only [Option.some.injEq, Prod.mk.injEq, Except.ok.injEq, true_and] at hadd
        obtain ⟨h1, h2, h3, h4, h5, h6⟩ := mine_ok _ _ _ _ _ _ _ heq
        subst hadd
        refine ⟨by simp [hne], ?_, ?_, ?_, ?_⟩
        · intro b hb
          rcases List.mem_append.mp hb with hb | hb
          · exact hhash b hb
          · simp only [List.mem_singleton] at hb
            subst hb
            exact hashOk_of c b (by rw [h1, h2, h3]; exact h4)
        · refine List.chain'_append.mpr ⟨hchain, List.chain'_singleton _, ?_⟩
          intro x hx y hy
          simp only [List.head?_cons, Option.mem_def, Option.some.injEq] at hy
          subst hy
          rw [hlast] at hx
          simp only [Option.mem_def, Option.some.injEq] at hx
          subst hx
          exact h2
        · intro i hi
          have hlt2 : i < bc.chain.length + 1 := by
            simpa using hi
          rcases Nat.lt_or_ge i bc.chain.length with hlt | hge
          · have hget : (bc.chain ++ [nb]).get ⟨i, hi⟩ = bc.chain.get ⟨i, hlt⟩ := by
              simp only [List.get_eq_getElem]
              exact List.getElem_append_left hlt
            rw [hget]
            exact hidx i hlt
          · have hieq : i = bc.chain.length := by omega
            subst hieq
            have hget : (bc.chain ++ [nb]).get ⟨bc.chain.length, hi⟩ = nb := by
              simp only [List.get_eq_getElem]
              rw [List.getElem_append_right (Nat.le_refl _)]
              simp
            rw [hget, h1]
        · intro b0 hb0
          apply hhead
          cases hcs : bc.chain with
          | nil => exact absurd hcs hne
          | cons bh bt =>
            rw [hcs] at hb0
            simp only [List.cons_append, List.head?_cons, Option.some.injEq] at hb0 ⊢
            exact hb0

/-- Inverse direction of `hashOk_of`: a passing hash check yields the
successful recomputation equation. -/
theorem hashOk_elim (c : Crypto) (b : Block) (h : hashOk c b = true) :
    calculate_hash c b.index b.previous_hash b.transactions b.nonce = Except.ok b.hash := by
  rw [hashOk] at h
  split at h
  next => simp at h
  next hsh heq => rw [beq_iff_eq] at h; rw [heq, h]

theorem modifyIdx_get_self {α : Type} (f : α → α) (l : List α) (i : Nat)
    (h1 : i < (modifyIdx i f l).length) (h2 : i < l.length) :
    (modifyIdx i f l).get ⟨i, h1⟩ = f (l.get ⟨i, h2⟩) := by
  have h3 := modifyIdx_getElem? f l i
  rw [List.getElem?_eq_getElem h1, List.getElem?_eq_getElem h2] at h3
  simp only [Option.map_some', Option.some.injEq] at h3
  simp only [List.get_eq_getElem]
  exact h3

theorem modifyIdx_get_other {α : Type} (f : α → α) (l : List α) (i j : Nat) (hne : i ≠ j)
    (h1 : j < (modifyIdx i f l).length) (h2 : j < l.length) :
    (modifyIdx i f l).get ⟨j, h1⟩ = l.get ⟨j, h2⟩ := by
  have h3 := modifyIdx_getElem?_ne f l i j hne
  rw [List.getElem?_eq_getElem h1, List.getElem?_eq_getElem h2] at h3
  simp only [Option.some.injEq] at h3
  simp only [List.get_eq_getElem]
  exact h3

deriving instance DecidableEq for Except

/-- Toy instantiation of the external primitives (constant empty digest,
signature check accepting exactly the empty signature, total serializer)
used to exercise the theorems on concrete inputs. -/
def cW : Crypto := ⟨fun _ => [], fun _ sgn _ => sgn.isEmpty, fun _ => some ""⟩

/-- Toy instantiation whose serializer always fails. -/
def cNone : Crypto := ⟨fun _ => [], fun _ _ _ => true, fun _ => none⟩

/-- Toy instantiation with an input-dependent digest: exactly the
preimage string "01" (index 0, empty previous hash, empty serialization,
nonce 1) hashes to a digest with a leading zero hex character. -/
def cW6 : Crypto :=
  ⟨fun l => if l = strBytes "01" then [0] else [255], fun _ _ _ => true, fun _ => some ""⟩

/-- Toy instantiation where every digest is the single byte 0. -/
def cW2 : Crypto := ⟨fun _ => [0], fun _ _ _ => true, fun _ => some ""⟩

/-- Toy instantiation where every digest is the single byte 255 (hex
"ff", so no digest ever has a leading zero character). -/
def c9 : Crypto := ⟨fun _ => [255], fun _ _ _ => true, fun _ => some ""⟩

/-- Genesis block mined by `cW` at difficulty 0. -/
def gW : Block := ⟨0, "0", "", [], 0⟩

/-- An (empty-signature) transaction accepted by `cW`. -/
def txW : Transaction := ⟨[], "", []⟩

/-- Second block mined by `cW` at difficulty 0 on top of `gW`. -/
def bW1 : Block := ⟨1, "", "", [txW], 0⟩

/-- Two-block chain built by `cW` through `new` + `add_block`. -/
def bcW : Blockchain := ⟨[gW, bW1], 0⟩

/-- C2: for every difficulty `d` and every input on which mining returns
a block, the returned block's hash is a hex string with at least `d`
leading zero characters. -/
theorem C2_mining_meets_difficulty (c : Crypto) (idx : Nat) (prev : String)
    (txs : List Transaction) (d fuel : Nat) (b : Block) (ch : Char)
    (hm : mine c idx prev txs d fuel = some (Except.ok b))
    (hch : ch ∈ b.hash.data) :
    isHexChar ch = true ∧ List.replicate d '0' <+: b.hash.data := by
  obtain ⟨h1, h2, h3, h4, h5, h6⟩ := mine_ok c idx prev txs d fuel b hm
  constructor
  · rw [calculate_hash] at h4
    cases hser : c.ser txs with
    | none => rw [hser] at h4; simp at h4
    | some data =>
      rw [hser] at h4
      simp only [Except.ok.injEq] at h4
      rw [← h4] at hch
      exact hexEncode_chars _ ch hch
  · have h5b : (List.replicate d '0').isPrefixOf b.hash.data = true := h5
    exact List.isPrefixOf_iff_prefix.mp h5b

/-- Witness for C2 at a concrete toy digest. -/
theorem C2_mining_meets_difficulty_witness :
    isHexChar '0' = true ∧ List.replicate 1 '0' <+: ("00" : String).data :=
  C2_mining_meets_difficulty cW2 0 "" [] 1 1 ⟨0, "", "00", [], 0⟩ '0' (by decide) (by decide)

/-- C3: every block returned by `mine` is self-consistent: its stored
hash is exactly the recomputation of `calculate_hash` from its own
stored fields, and those fields equal the mining arguments. -/
theorem C3_mined_block_self_consistent (c : Crypto) (idx : Nat) (prev : String)
    (txs : List Transaction) (d fuel : Nat) (b : Block)
    (hm : mine c idx prev txs d fuel = some (Except.ok b)) :
    calculate_hash c b.index b.previous_hash b.transactions b.nonce = Except.ok b.hash ∧
    b.index = idx ∧ b.previous_hash = prev ∧ b.transactions = txs := by
  obtain ⟨h1, h2, h3, h4, -, -⟩ := mine_ok c idx prev txs d fuel b hm
  exact ⟨by rw [h1, h2, h3]; exact h4, h1, h2, h3⟩

/-- Witness for C3 at a concrete toy digest. -/
theorem C3_mined_block_self_consistent_witness :
    calculate_hash cW2 0 "" [] 0 = Except.ok "00" ∧
    (0 : Nat) = 0 ∧ ("" : String) = "" ∧ ([] : List Transaction) = [] :=
  C3_mined_block_self_consistent cW2 0 "" [] 1 1 ⟨0, "", "00", [], 0⟩ (by decide)

/-- C5: `Transaction::verify` is a total boolean function of the raw
transaction bytes (any sender, payload and signature bytes are a legal
`Transaction` value) and it returns `false`, rather than raising,
whenever the underlying signature scheme rejects. -/
theorem C5_verify_total (c : Crypto) (t : Transaction)
    (hrej : c.sigVerify (Transaction.hash c t) t.signature t.«from» = false) :
    Transaction.verify c t = false := by
  rw [Transaction.verify, PQC.verify, hrej]

/-- Witness for C5 on a malformed (wrong-length) signature that the toy
scheme rejects. -/
theorem C5_verify_total_witness :
    Transaction.verify cW ⟨[1, 2], "hello", [1, 2, 3]⟩ = false :=
  C5_verify_total cW ⟨[1, 2], "hello", [1, 2, 3]⟩ (by decide)

/-- C6: mining is a brute-force search from nonce 0 upwards: every nonce
below the returned one fails the difficulty check, and at difficulty 0
the very first iteration succeeds, returning a block with nonce 0. -/
theorem C6_brute_force_search (c : Crypto) (idx : Nat) (prev : String)
    (txs : List Transaction) (d fuel : Nat) (b : Block) (n : Nat) (s : String)
    (hm : mine c idx prev txs d fuel = some (Except.ok b))
    (hser : c.ser txs = some s)
    (hn : n < b.nonce) :
    (∃ h, calculate_hash c idx prev txs n = Except.ok h ∧ startsWithZeros d h = false) ∧
    (∃ b2, mine c idx prev txs 0 1 = some (Except.ok b2) ∧ b2.nonce = 0) := by
  obtain ⟨-, -, -, -, -, h6⟩ := mine_ok c idx prev txs d fuel b hm
  refine ⟨h6 n hn, ?_⟩
  refine ⟨⟨idx, prev, hexEncode (c.sha256 (strBytes (toString idx ++ prev ++ s ++ toString 0))),
    txs, 0⟩, ?_, rfl⟩
  simp [mine, mineAux, calculate_hash, hser, startsWithZeros]

/-- Witness for C6 with a digest that fails the difficulty at nonce 0 and
meets it at nonce 1. -/
theorem C6_brute_force_search_witness :
    (∃ h, calculate_hash cW6 0 "" [] 0 = Except.ok h ∧ startsWithZeros 1 h = false) ∧
    (∃ b2, mine cW6 0 "" [] 0 1 = some (Except.ok b2) ∧ b2.nonce = 0) :=
  C6_brute_force_search cW6 0 "" [] 1 2 ⟨0, "", "00", [], 1⟩ 0 "" (by decide) (by decide)
    (by decide)

/-- C7: `Transaction::hash` is a pure function of the sender and payload
only (the signature is not hashed), and equals the digest of the sender
bytes followed by the payload bytes. -/
theorem C7_tx_hash_pure (c : Crypto) (t1 t2 : Transaction)
    (hf : t1.«from» = t2.«from») (hd : t1.data = t2.data) :
    Transaction.hash c t1 = Transaction.hash c t2 ∧
    Transaction.hash c t1 = c.sha256 (t1.«from» ++ strBytes t1.data) := by
  constructor
  · rw [Transaction.hash, Transaction.hash, hf, hd]
  · rfl

/-- Witness for C7: two transactions with equal sender and payload but
different signatures hash identically. -/
theorem C7_tx_hash_pure_witness :
    Transaction.hash cW ⟨[1], "a", [5]⟩ = Transaction.hash cW ⟨[1], "a", [6]⟩ ∧
    Transaction.hash cW ⟨[1], "a", [5]⟩ = cW.sha256 ([1] ++ strBytes "a") :=
  C7_tx_hash_pure cW ⟨[1], "a", [5]⟩ ⟨[1], "a", [6]⟩ rfl rfl

/-- C8: `add_block` is atomic on failure: whenever it returns an error
(empty chain, or a serialization error propagated out of mining), the
chain state after the call is exactly the state before it. -/
theorem C8_add_block_atomic (c : Crypto) (bc : Blockchain) (txs : List Transaction)
    (fuel : Nat) (e : ChainError) (bc2 : Blockchain)
    (h : Blockchain.add_block c bc txs fuel = some (Except.error e, bc2)) :
    bc2 = bc := by
  simp only [Blockchain.add_block] at h
  split at h
  next =>
    simp only [Option.some.injEq, Prod.mk.injEq] at h
    exact h.2.symm
  next last hlast =>
    split at h
    next => simp at h
    next e2 heq =>
      simp only [Option.some.injEq, Prod.mk.injEq] at h
      exact h.2.symm
    next nb heq => simp at h

/-- Witness for C8: a serialization failure inside mining leaves the
chain untouched. -/
theorem C8_add_block_atomic_witness : bcW = bcW :=
  C8_add_block_atomic cNone bcW [] 1 ChainError.Serialize bcW (by decide)

/-- C9: `is_valid` never re-checks the difficulty predicate: a concrete
chain (difficulty 3) whose blocks are self-consistent, correctly linked
and carry only accepted transactions, but whose hashes have no leading
zero characters at all, still validates. -/
theorem C9_no_difficulty_check :
    hashOk c9 ⟨0, "0", "ff", [], 0⟩ = true ∧
    hashOk c9 ⟨1, "ff", "ff", [⟨[1], "x", [2]⟩], 0⟩ = true ∧
    (⟨1, "ff", "ff", [⟨[1], "x", [2]⟩], 0⟩ : Block).previous_hash =
      (⟨0, "0", "ff", [], 0⟩ : Block).hash ∧
    txsOk c9 [⟨[1], "x", [2]⟩] = true ∧
    startsWithZeros 3 "ff" = false ∧
    Blockchain.is_valid c9 ⟨[⟨0, "0", "ff", [], 0⟩, ⟨1, "ff", "ff", [⟨[1], "x", [2]⟩], 0⟩], 3⟩ =
      true := by
  decide

/-- C1: a chain built purely through `new` + `add_block` whose
transactions all verify validates successfully; overwriting any stored
block hash with a differing digest, or any non-genesis `previous_hash`
with a string differing from the predecessor's stored hash, makes
validation fail; and altering any transaction's signature bytes to a
signature the scheme rejects also makes validation fail. -/
theorem C1_validation_soundness (c : Crypto) (bc : Blockchain)
    (i j k l : Nat) (h' p' : String) (s' : List Nat)
    (hB : Built c bc)
    (hgen : ∀ b ∈ bc.chain, ∀ t ∈ b.transactions, Transaction.verify c t = true)
    (hi : i < bc.chain.length)
    (hh : h' ≠ (bc.chain.get ⟨i, hi⟩).hash)
    (hj1 : 1 ≤ j) (hj : j < bc.chain.length)
    (hp : p' ≠ (bc.chain.get ⟨j - 1, by omega⟩).hash)
    (hk : k < bc.chain.length)
    (hl : l < (bc.chain.get ⟨k, hk⟩).transactions.length)
    (hs : Transaction.verify c
      (withSig s' ((bc.chain.get ⟨k, hk⟩).transactions.get ⟨l, hl⟩)) = false) :
    Blockchain.is_valid c bc = true ∧
    Blockchain.is_valid c (setHash bc i h') = false ∧
    Blockchain.is_valid c (setPrev bc j p') = false ∧
    Blockchain.is_valid c (setSig bc k l s') = false := by
  obtain ⟨hne, hhash, hchain, hidx, hhead⟩ := built_inv c bc hB
  refine ⟨?_, ?_, ?_, ?_⟩
  · rw [Blockchain.is_valid, validFrom_eq_true]
    exact ⟨fun b hb => ⟨hhash b hb, (txsOk_eq_true c _).mpr (hgen b hb)⟩, hchain,
      fun ph b0 hcontra => nomatch hcontra⟩
  · rw [Bool.eq_false_iff]
    intro hv
    rw [Blockchain.is_valid, validFrom_eq_true] at hv
    obtain ⟨hall, -, -⟩ := hv
    have hl1 : i < (setHash bc i h').chain.length := by
      show i < (modifyIdx i (withHash h') bc.chain).length
      rw [modifyIdx_length]
      exact hi
    have hget : (setHash bc i h').chain.get ⟨i, hl1⟩ =
        withHash h' (bc.chain.get ⟨i, hi⟩) :=
      modifyIdx_get_self (withHash h') bc.chain i hl1 hi
    have hmem := List.get_mem (setHash bc i h').chain i hl1
    rw [hget] at hmem
    have hok := hashOk_elim c _ (hall _ hmem).1
    have horig := hashOk_elim c _ (hhash _ (List.get_mem bc.chain i hi))
    have hok2 : calculate_hash c (bc.chain.get ⟨i, hi⟩).index
        (bc.chain.get ⟨i, hi⟩).previous_hash (bc.chain.get ⟨i, hi⟩).transactions
        (bc.chain.get ⟨i, hi⟩).nonce = Except.ok h' := hok
    rw [horig] at hok2
    exact hh (Except.ok.inj hok2).symm
  · rw [Bool.eq_false_iff]
    intro hv
    rw [Blockchain.is_valid, validFrom_eq_true] at hv
    obtain ⟨-, hchain2, -⟩ := hv
    obtain ⟨j2, rfl⟩ : ∃ j2, j = j2 + 1 := ⟨j - 1, by omega⟩
    rw [List.chain'_iff_get] at hchain2
    have hlen2 : (setPrev bc (j2 + 1) p').chain.length = bc.chain.length := by
      show (modifyIdx (j2 + 1) (withPrev p') bc.chain).length = bc.chain.length
      rw [modifyIdx_length]
    have hlen3 : (modifyIdx (j2 + 1) (withPrev p') bc.chain).length = bc.chain.length :=
      modifyIdx_length (withPrev p') bc.chain (j2 + 1)
    have hrel := hchain2 j2 (by omega)
    rw [linkRel] at hrel
    have hj2 : j2 < bc.chain.length := by omega
    have hga : (setPrev bc (j2 + 1) p').chain.get ⟨j2, by omega⟩ =
        bc.chain.get ⟨j2, hj2⟩ :=
      modifyIdx_get_other (withPrev p') bc.chain (j2 + 1) j2 (by omega) (by omega) hj2
    have hgb : (setPrev bc (j2 + 1) p').chain.get ⟨j2 + 1, by omega⟩ =
        withPrev p' (bc.chain.get ⟨j2 + 1, hj⟩) :=
      modifyIdx_get_self (withPrev p') bc.chain (j2 + 1) (by omega) hj
    rw [hga, hgb] at hrel
    have hrel2 : p' = (bc.chain.get ⟨j2, hj2⟩).hash := hrel
    have hp2 : p' ≠ (bc.chain.get ⟨j2, hj2⟩).hash := hp
    exact hp2 hrel2
  · rw [Bool.eq_false_iff]
    intro hv
    rw [Blockchain.is_valid, validFrom_eq_true] at hv
    obtain ⟨hall, -, -⟩ := hv
    have hl1 : k < (setSig bc k l s').chain.length := by
      show k < (modifyIdx k (withTxSig l s') bc.chain).length
      rw [modifyIdx_length]
      exact hk
    have hget : (setSig bc k l s').chain.get ⟨k, hl1⟩ =
        withTxSig l s' (bc.chain.get ⟨k, hk⟩) :=
      modifyIdx_get_self (withTxSig l s') bc.chain k hl1 hk
    have hmem := List.get_mem (setSig bc k l s').chain k hl1
    rw [hget] at hmem
    have htx := (hall _ hmem).2
    rw [txsOk_eq_true] at htx
    have hl2 : l < (modifyIdx l (withSig s') (bc.chain.get ⟨k, hk⟩).transactions).length := by
      rw [modifyIdx_length]
      exact hl
    have hgt : (modifyIdx l (withSig s') (bc.chain.get ⟨k, hk⟩).transactions).get ⟨l, hl2⟩ =
        withSig s' ((bc.chain.get ⟨k, hk⟩).transactions.get ⟨l, hl⟩) :=
      modifyIdx_get_self (withSig s') (bc.chain.get ⟨k, hk⟩).transactions l hl2 hl
    have hmem2 := List.get_mem (modifyIdx l (withSig s')
      (bc.chain.get ⟨k, hk⟩).transactions) l hl2
    rw [hgt] at hmem2
    have hmem3 : withSig s' ((bc.chain.get ⟨k, hk⟩).transactions.get ⟨l, hl⟩) ∈
        (withTxSig l s' (bc.chain.get ⟨k, hk⟩)).transactions := hmem2
    have hvrf := htx _ hmem3
    exact Bool.false_ne_true (hs.symm.trans hvrf)

/-- Witness for C1 on a concrete two-block chain built by `new` and
`add_block` under the toy primitives. -/
theorem C1_validation_soundness_witness :
    Blockchain.is_valid cW bcW = true ∧
    Blockchain.is_valid cW (setHash bcW 0 "x") = false ∧
    Blockchain.is_valid cW (setPrev bcW 1 "x") = false ∧
    Blockchain.is_valid cW (setSig bcW 1 0 [9]) = false := by
  have hBuilt : Built cW bcW :=
    Built.step ⟨[gW], 0⟩ [txW] 1 bcW (Built.base 0 1 ⟨[gW], 0⟩ (by decide)) (by decide)
  exact C1_validation_soundness cW bcW 0 1 1 0 "x" "x" [9] hBuilt (by decide) (by decide)
    (by decide) (by decide) (by decide) (by decide) (by decide) (by decide) (by decide)

/-- Toy constant-digest crypto for the long-chain construction: every
digest is empty, so every hash is the empty hex string and difficulty-0
mining succeeds at nonce 0 on the first iteration. -/
def cT : Crypto := ⟨fun _ => [], fun _ _ _ => true, fun _ => some ""⟩

/-- Block `i` of the long toy chain; the stored index wraps at `2 ^ 32`
because `add_block` casts the chain length with `as u32`. -/
def tBlk (i : Nat) : Block := ⟨i % 2 ^ 32, if i = 0 then "0" else "", "", [], 0⟩

/-- Toy chain with `n + 1` blocks as built by `new` plus `n` calls of
`add_block` under `cT` (difficulty 0, empty transaction batches). -/
def tChain : Nat → List Block
  | 0 => [tBlk 0]
  | n + 1 => tChain n ++ [tBlk (n + 1)]

theorem tChain_length (n : Nat) : (tChain n).length = n + 1 := by
  induction n with
  | zero => rfl
  | succ n ih => simp [tChain, ih]

theorem tChain_getLast (n : Nat) : (tChain n).getLast? = some (tBlk n) := by
  cases n with
  | zero => rfl
  | succ n => rw [tChain]; exact List.getLast?_concat _

theorem tChain_built (n : Nat) : Built cT ⟨tChain n, 0⟩ := by
  induction n with
  | zero => exact Built.base 0 1 ⟨tChain 0, 0⟩ (by decide)
  | succ n ih =>
    refine Built.step ⟨tChain n, 0⟩ [] 1 ⟨tChain (n + 1), 0⟩ ih ?_
    have hzero : ∀ s : String, startsWithZeros 0 s = true := fun s => by
      simp [startsWithZeros, List.isPrefixOf]
    have hmine : mine cT ((tChain n).length % 2 ^ 32) (tBlk n).hash [] 0 1 =
        some (Except.ok ⟨(tChain n).length % 2 ^ 32, (tBlk n).hash, "", [], 0⟩) := by
      show mineAux cT ((tChain n).length % 2 ^ 32) (tBlk n).hash [] 0 1 0 = _
      simp [mineAux, calculate_hash, cT, hexEncode, hzero]
    have hblk : (⟨(tChain n).length % 2 ^ 32, (tBlk n).hash, "", [], 0⟩ : Block) =
        tBlk (n + 1) := by
      simp [tBlk, tChain_length]
    simp only [Blockchain.add_block, tChain_getLast n, hmine, hblk]
    rfl

theorem tChain_get (n : Nat) : ∀ (i : Nat) (hi : i < (tChain n).length),
    (tChain n).get ⟨i, hi⟩ = tBlk i := by
  induction n with
  | zero =>
    intro i hi
    have h0 : i = 0 := by
      have := tChain_length 0
      omega
    subst h0
    rfl
  | succ n ih =>
    intro i hi
    have hlen : (tChain n).length = n + 1 := tChain_length n
    have hlen2 : (tChain (n + 1)).length = n + 2 := tChain_length (n + 1)
    rcases Nat.lt_or_ge i (n + 1) with hlt | hge
    · have h2 : i < (tChain n).length := by omega
      have hg : (tChain (n + 1)).get ⟨i, hi⟩ = (tChain n).get ⟨i, h2⟩ := by
        show (tChain n ++ [tBlk (n + 1)]).get ⟨i, hi⟩ = _
        simp only [List.get_eq_getElem]
        exact List.getElem_append_left h2
      rw [hg, ih i h2]
    · have hieq : i = n + 1 := by omega
      subst hieq
      show (tChain n ++ [tBlk (n + 1)]).get ⟨n + 1, hi⟩ = tBlk (n + 1)
      simp only [List.get_eq_getElem]
      rw [List.getElem_append_right (by omega)]
      simp [hlen]

/-- C4 counterexample: the claim "blocks[i].index == i for all i" fails
on the code because `add_block` truncates the chain length with `as
u32`: the chain reachable by `new` plus `2 ^ 32` appends stores index 0,
not `2 ^ 32`, in its block at position `2 ^ 32`. -/
theorem C4_chain_structure_counterexample :
    Built cT ⟨tChain (2 ^ 32), 0⟩ ∧
    (tChain (2 ^ 32)).length = 2 ^ 32 + 1 ∧
    ¬ ∀ (i : Nat) (hi : i < (tChain (2 ^ 32)).length),
        ((tChain (2 ^ 32)).get ⟨i, hi⟩).index = i := by
  refine ⟨tChain_built _, tChain_length _, ?_⟩
  intro hall
  have hlen := tChain_length (2 ^ 32)
  have hi : 2 ^ 32 < (tChain (2 ^ 32)).length := by omega
  have hidx := hall (2 ^ 32) hi
  rw [tChain_get] at hidx
  have hidx2 : 2 ^ 32 % 2 ^ 32 = 2 ^ 32 := hidx
  rw [Nat.mod_self] at hidx2
  have h32 : (0 : Nat) < 2 ^ 32 := by norm_num
  omega

/-- C4 (amended): for a chain built by `new` + `add_block`, the first
block has index 0 and previous hash `"0"`, the block at position `i`
stores index `i % 2 ^ 32` (the claim's `blocks[i].index == i` holds only
below `2 ^ 32` because of the `as u32` cast), and every block's
`previous_hash` equals its predecessor's stored hash. -/
theorem C4_chain_structure (c : Crypto) (bc : Blockchain) (b0 : Block) (i j : Nat)
    (hB : Built c bc)
    (hb0 : bc.chain.head? = some b0)
    (hi : i < bc.chain.length)
    (hj : j + 1 < bc.chain.length) :
    b0.index = 0 ∧ b0.previous_hash = "0" ∧
    (bc.chain.get ⟨i, hi⟩).index = i % 2 ^ 32 ∧
    (bc.chain.get ⟨j + 1, hj⟩).previous_hash =
      (bc.chain.get ⟨j, Nat.lt_of_succ_lt hj⟩).hash := by
  obtain ⟨hne, hhash, hchain, hidx, hhead⟩ := built_inv c bc hB
  obtain ⟨hb1, hb2⟩ := hhead b0 hb0
  refine ⟨hb1, hb2, hidx i hi, ?_⟩
  rw [List.chain'_iff_get] at hchain
  have hrel := hchain j (by omega)
  rw [linkRel] at hrel
  exact hrel

/-- Witness for the amended C4 on the concrete two-block chain. -/
theorem C4_chain_structure_witness :
    gW.index = 0 ∧ gW.previous_hash = "0" ∧
    (bcW.chain.get ⟨1, by decide⟩).index = 1 % 2 ^ 32 ∧
    (bcW.chain.get ⟨1, by decide⟩).previous_hash = (bcW.chain.get ⟨0, by decide⟩).hash := by
  have hBuilt : Built cW bcW :=
    Built.step ⟨[gW], 0⟩ [txW] 1 bcW (Built.base 0 1 ⟨[gW], 0⟩ (by decide)) (by decide)
  exact C4_chain_structure cW bcW gW 1 0 hBuilt (by decide) (by decide) (by decide)

/-- C10: when re-deriving a block hash fails with a serialization error,
`is_valid` swallows the error and returns `false` instead of propagating
it. -/
theorem C10_is_valid_swallows_error (c : Crypto) (bc : Blockchain) (b : Block)
    (hb : b ∈ bc.chain) (hser : c.ser b.transactions = none) :
    Blockchain.is_valid c bc = false := by
  rw [Bool.eq_false_iff]
  intro hvalid
  rw [Blockchain.is_valid, validFrom_eq_true] at hvalid
  obtain ⟨hall, -, -⟩ := hvalid
  have hb2 := (hall b hb).1
  simp [hashOk, calculate_hash, hser] at hb2

/-- Witness for C10 with an always-failing serializer. -/
theorem C10_is_valid_swallows_error_witness :
    Blockchain.is_valid cNone ⟨[⟨0, "0", "", [], 0⟩], 0⟩ = false :=
  C10_is_valid_swallows_error cNone ⟨[⟨0, "0", "", [], 0⟩], 0⟩ ⟨0, "0", "", [], 0⟩
    (by decide) (by decide)

end PqcChain
